import Mathlib

set_option maxRecDepth 8000

/-!
Verification of the best_price purchase-plan optimizer.

The development shallowly embeds the three solver variants of the repository:

* bestPrice.ts        - brute-force backtracking (backtrack, bruteSolve)
* bestPriceDP.ts      - memoized dynamic programming (dp, dpSolve)
* bestPriceDPOptimized.ts - branch-and-bound DP (dpBB, optSearch, optSolve,
  getGreedyUpperBound, getLowerBound, reconstruct)

Conventions of the embedding:

* Prices in a parsed catalog are natural numbers (the data model declares them
  non-negative integers).  The raw, unparsed catalog with string prices is
  embedded separately (RawCatalog) together with a model of the Number()
  coercion used by the loaders.
* The JavaScript sentinel Infinity of cost variables is embedded as the value
  none of an Option Nat; ltO reproduces the behaviour of the < comparison on
  such values.
* JavaScript bitwise shifts reduce their shift count modulo 32; jsShl1 i
  models the mask bit 1 << i on the unsigned 32-bit view of the bitmask.
  Bitmask union and intersection are Nat.lor and Nat.land on that view.
* The popcount loop of the DP sources uses the sign-propagating shift
  n >>= 1, which never terminates when the int32 view of the mask is
  negative, that is when bit 31 is set (1 << 31 is negative in JS).
  popcount therefore returns an Option Nat: none is that infinite loop,
  and dp, dpSolve and dpBB propagate it as the divergence of the whole
  run (the none or hang outcomes below).  Every mask is below 2^32, where
  this model of the loop is exact.
* A JavaScript Set of strings is embedded as a duplicate-free list in
  insertion order (setInsert, setOfList); Set.delete is List.erase.
* An item id that is absent from the itemToShops map yields the empty option
  list; the construction never creates an empty entry, so the empty list is
  exactly the case in which map.get returns undefined in the source.
* The memo table of bestPriceDP.ts is keyed on the full argument pair of its
  pure recursion, so it is semantically transparent and dp is embedded as the
  pure recursion it caches.  The memo table of bestPriceDPOptimized.ts is not
  transparent (the function reads the mutable best-cost ceiling), so dpBB
  threads the memo table and ceiling explicitly as state; the diagnostic
  counters (statesExplored, statesPruned, memoHits) are printed-only and are
  not part of the state.
* dpBB carries four flags.  With srcFlags (every flag on) it is the source
  code; clearing a flag disables the corresponding pruning rule or the memo
  table, which the refinement claims about pruning quantify over.
-/

/- ---------- data model ---------- -/

structure PriceOption where
  shop : String
  price : Nat
  shopIndex : Nat
deriving DecidableEq

structure Selection where
  itemId : String
  shop : String
  price : Nat
deriving DecidableEq

structure Result where
  selectedItems : List Selection
  totalCost : Nat
  shopCount : Nat
  shops : List String
deriving DecidableEq

/- ---------- JavaScript primitives ---------- -/

/-- JS comparison a < b where none stands for Infinity. -/
def ltO : Option Nat → Option Nat → Bool
  | none, _ => false
  | some _, none => true
  | some a, some b => a < b

/-- The mask bit 1 << i of a shop index: JS shifts take the count mod 32. -/
def jsShl1 (i : Nat) : Nat := 2 ^ (i % 32)

/-- Fuel-driven core of the bit-count loop of the sources. -/
def popcountAux : Nat → Nat → Nat
  | 0, _ => 0
  | _ + 1, 0 => 0
  | f + 1, v + 1 => (v + 1) % 2 + popcountAux f ((v + 1) / 2)

/-- The popcount helper of the DP sources: while (n) { count += n and 1;
n >>= 1 }.  The shift is sign-propagating on the int32 view, so for an
argument below 2^31 (nonnegative int32) the loop terminates with the bit
count, and for an argument with bit 31 set (negative int32) the iterate
gets stuck at -1 and the loop never ends; that divergence is none. -/
def popcount (n : Nat) : Option Nat :=
  if n < 2 ^ 31 then some (popcountAux n n) else none

/-- JS Set.add on a set embedded as a duplicate-free list in insertion order. -/
def setInsert (s : List String) (x : String) : List String :=
  if x ∈ s then s else s ++ [x]

/-- The JS Set built by inserting the elements of a list in order. -/
def setOfList (l : List String) : List String := l.foldl setInsert []

/- ---------- catalog index construction (parsed prices) ---------- -/

/-- A parsed catalog: vendor name with its inventory of (item id, price). -/
abbrev Catalog := List (String × List (String × Nat))

/-- The shopList array: vendor names in order of first appearance. -/
def shopList (cat : Catalog) : List String :=
  cat.foldl (fun acc e => if e.1 ∈ acc then acc else acc ++ [e.1]) []

/-- The shopNameToIndex map: position of a vendor in shopList. -/
def shopNameToIndex (cat : Catalog) (s : String) : Nat :=
  (shopList cat).indexOf s

/-- The itemToShops map: options of an item in vendor-major construction
order, each option carrying the vendor name, price and vendor index. -/
def itemToShops (cat : Catalog) (id : String) : List PriceOption :=
  cat.foldl
    (fun acc e =>
      acc ++ (e.2.filter (fun p => p.1 == id)).map
        (fun p => ⟨e.1, p.2, shopNameToIndex cat e.1⟩))
    []

/- ---------- raw catalog construction (string prices) ---------- -/

/-- A raw catalog as loaded from JSON: prices are still strings. -/
abbrev RawCatalog := List (String × List (String × String))

/-- Reads a non-empty all-digit character list as a natural number. -/
def digitsVal (l : List Char) : Option Nat :=
  if l ≠ [] ∧ l.all Char.isDigit then
    some (l.foldl (fun a c => a * 10 + (c.toNat - 48)) 0)
  else none

/-- Modelled from the JS Number() coercion applied by the loaders, on the
fragment the catalogs exercise: an optional minus sign followed by decimal
digits parses to an integer, and any other string yields NaN, embedded as
none.  The loaders apply this coercion with no validation whatsoever. -/
def jsNumber (s : String) : Option Int :=
  match s.toList with
  | '-' :: rest => (digitsVal rest).map (fun n => -(n : Int))
  | l => (digitsVal l).map (fun n => (n : Int))

/-- An option as stored by the loader before any validation: the price is
whatever Number() produced, NaN (none) included. -/
structure RawOption where
  shop : String
  price : Option Int
  shopIndex : Nat
deriving DecidableEq

/-- shopList of a raw catalog. -/
def rawShopList (cat : RawCatalog) : List String :=
  cat.foldl (fun acc e => if e.1 ∈ acc then acc else acc ++ [e.1]) []

/-- The itemToShops construction of the loaders on raw data: every inventory
entry is kept, its price string coerced by Number() with no check. -/
def rawItemToShops (cat : RawCatalog) (id : String) : List RawOption :=
  cat.foldl
    (fun acc e =>
      acc ++ (e.2.filter (fun p => p.1 == id)).map
        (fun p => ⟨e.1, jsNumber p.2, (rawShopList cat).indexOf e.1⟩))
    []

/- ---------- the brute-force oracle ---------- -/

/-- All complete vendor-choice combinations for the requested items: one
option from the option list of each item, in order. -/
def combos (opts : String → List PriceOption) : List String → List (List PriceOption)
  | [] => [[]]
  | id :: rest => (opts id).flatMap (fun o => (combos opts rest).map (fun t => o :: t))

/-- Total price of a combination. -/
def comboCost (t : List PriceOption) : Nat := (t.map PriceOption.price).sum

/-- The distinct vendors of a combination, in first-use order. -/
def comboShops (t : List PriceOption) : List String :=
  setOfList (t.map PriceOption.shop)

/-- One step of a running minimum, keeping the earlier value on ties. -/
def updMin : Option Nat → Nat → Option Nat
  | none, x => some x
  | some a, x => if x < a then some x else some a

/-- Minimum of a list of naturals, none when the list is empty. -/
def listMinN (l : List Nat) : Option Nat := l.foldl updMin none

/-- The brute-force oracle value: the minimum total price over every
combination of vendor choices. -/
def oracleMin (opts : String → List PriceOption) (items : List String) : Option Nat :=
  listMinN ((combos opts items).map comboCost)

/-- Cheapest price of an option list, as computed by Math.min in the sources;
0 for an empty list, matching the skip of such items by the bound helpers. -/
def minPrice : List PriceOption → Nat
  | [] => 0
  | o :: os => os.foldl (fun m x => Nat.min m x.price) o.price

/-- Sum of the per-item cheapest prices when every item has an option,
none as soon as one item has none. -/
def minSumO (opts : String → List PriceOption) : List String → Option Nat
  | [] => some 0
  | id :: rest =>
      match opts id, minSumO opts rest with
      | [], _ => none
      | _ :: _, none => none
      | o :: os, some s => some (minPrice (o :: os) + s)

/-- Sum of the per-item cheapest prices, items without options contributing
0: the common value of the greedy bound and of the lower bound at index 0. -/
def looseLB (opts : String → List PriceOption) : List String → Nat
  | [] => 0
  | id :: rest => minPrice (opts id) + looseLB opts rest

/- ---------- bestPrice.ts : brute-force backtracking ---------- -/

/-- The mutable best-plan cell of bestPrice.ts. -/
structure BruteSt where
  bestCost : Option Nat
  bestShopCount : Option Nat
  bestSelection : List Selection
deriving DecidableEq

/-- The option loop of backtrack: push the selection, add the shop to the
set, recurse through the continuation f, then pop and delete the shop from
whatever set the recursion left behind. -/
def btLoop (f : Selection → Nat → List String → BruteSt → BruteSt × List String)
    (id : String) (c : Nat) :
    List PriceOption → BruteSt × List String → BruteSt × List String
  | [], p => p
  | o :: os, p =>
      let q := f ⟨id, o.shop, o.price⟩ (c + o.price) (setInsert p.2 o.shop) p.1
      btLoop f id c os (q.1, q.2.erase o.shop)

/-- The backtrack function of bestPrice.ts.  The shops argument is the
shared mutable Set of vendor names; the function returns it together with
the best-plan cell because the unconditional delete after each recursive
call does not restore insertions that were already present. -/
def backtrack (opts : String → List PriceOption) :
    List String → List Selection → Nat → List String → BruteSt → BruteSt × List String
  | [], sel, c, shops, st =>
      (if ltO (some c) st.bestCost ||
          (st.bestCost == some c && ltO (some shops.length) st.bestShopCount)
       then ⟨some c, some shops.length, sel⟩ else st, shops)
  | id :: rest, sel, c, shops, st =>
      btLoop (fun s c2 sh st2 => backtrack opts rest (sel ++ [s]) c2 sh st2)
        id c (opts id) (st, shops)

/-- The result assembly of bestPrice.ts: error exit when no selection was
recorded, otherwise the Result record printed by the script. -/
def bruteSolve (opts : String → List PriceOption) (items : List String) : Option Result :=
  let st := (backtrack opts items [] 0 [] ⟨none, none, []⟩).1
  if st.bestSelection.isEmpty then none
  else
    some ⟨st.bestSelection, st.bestCost.getD 0, st.bestShopCount.getD 0,
          setOfList (st.bestSelection.map Selection.shop)⟩

/- ---------- bestPriceDP.ts : memoized DP ---------- -/

/-- The DPState record of bestPriceDP.ts. -/
structure DPSt where
  cost : Option Nat
  selection : List Selection
  shops : Nat
deriving DecidableEq

/-- Accumulator of the option loop of dp: the running best cost, best shop
count, and best option with its future state and new mask. -/
abbrev DPAcc := Option Nat × Option Nat × Option (PriceOption × DPSt × Nat)

/-- The option loop of dp in bestPriceDP.ts: try each shop of the item,
obtain the future state from the continuation f, skip infeasible futures,
and keep the option of least total cost, breaking ties by the popcount of
the mask extended with the option's bit.  A diverging recursive call or a
diverging popcount (bit 31 set in the new mask) makes the whole loop
diverge: the none outcome. -/
def dpChoose (f : Nat → Option DPSt) (mask : Nat) : List PriceOption → DPAcc → Option DPAcc
  | [], acc => some acc
  | o :: os, acc =>
      let nm := Nat.lor mask (jsShl1 o.shopIndex)
      match f nm with
      | none => none
      | some fs =>
          match fs.cost with
          | none => dpChoose f mask os acc
          | some fc =>
              match popcount nm with
              | none => none
              | some cnt =>
                  let total := o.price + fc
                  dpChoose f mask os
                    (if ltO (some total) acc.1
                        || (acc.1 == some total && ltO (some cnt) acc.2.1)
                     then (some total, some cnt, some (o, fs, nm))
                     else acc)

/-- The dp function of bestPriceDP.ts, embedded as the pure recursion its
full-key memo table caches; none is non-termination of the run (the
popcount loop stuck on a negative int32 mask). -/
def dp (opts : String → List PriceOption) : List String → Nat → Option DPSt
  | [], mask => some ⟨some 0, [], mask⟩
  | id :: rest, mask =>
      let options := opts id
      if options.isEmpty then some ⟨none, [], mask⟩
      else
        match dpChoose (fun nm => dp opts rest nm) mask options (none, none, none) with
        | none => none
        | some (bc, _, some b) =>
            some ⟨bc, ⟨id, b.1.shop, b.1.price⟩ :: b.2.1.selection, b.2.2⟩
        | some (_, _, none) => some ⟨none, [], mask⟩

/-- The shopsUsed list of bestPriceDP.ts: names of the shops whose bit is
set in the final mask. -/
def shopsFromMask (shopL : List String) (mask : Nat) : List String :=
  (List.range shopL.length).foldl
    (fun acc i => if Nat.land mask (jsShl1 i) != 0 then acc ++ [shopL.getD i ""] else acc)
    []

/-- Outcome of one run of bestPriceDP.ts: an emitted Result, the error exit
taken when no plan exists, or non-termination of the popcount loop. -/
inductive DPOutcome where
  | result : Result → DPOutcome
  | failure : DPOutcome
  | hang : DPOutcome
deriving DecidableEq

/-- Projection of a DPOutcome onto its emitted Result, if any. -/
def dpResultOf : DPOutcome → Option Result
  | DPOutcome.result r => some r
  | _ => none

/-- The result assembly of bestPriceDP.ts: the infeasibility error exit is
checked first, then popcount runs on the final shops mask (and hangs there
if that mask has bit 31 set). -/
def dpSolve (opts : String → List PriceOption) (shopL : List String)
    (items : List String) : DPOutcome :=
  match dp opts items 0 with
  | none => DPOutcome.hang
  | some d =>
      match d.cost with
      | none => DPOutcome.failure
      | some c =>
          match popcount d.shops with
          | none => DPOutcome.hang
          | some cnt => DPOutcome.result ⟨d.selection, c, cnt, shopsFromMask shopL d.shops⟩

/-- bestPriceDP.ts run against a catalog through its own index construction. -/
def dpSolveCat (cat : Catalog) (items : List String) : DPOutcome :=
  dpSolve (itemToShops cat) (shopList cat) items

/- ---------- bestPriceDPOptimized.ts : branch and bound ---------- -/

/-- Stable ascending insertion step of the price sort: the inserted option
precedes the options of equal price that followed it in the original list. -/
def insertByPrice (o : PriceOption) : List PriceOption → List PriceOption
  | [] => [o]
  | x :: xs => if x.price < o.price then x :: insertByPrice o xs else o :: x :: xs

/-- The stable ascending sort by price applied to option lists, as the
JS Array.prototype.sort with a numeric comparator. -/
def sortByPrice : List PriceOption → List PriceOption
  | [] => []
  | x :: xs => insertByPrice x (sortByPrice xs)

/-- The first strict-minimum scan of getGreedyUpperBound: keeps the earliest
cheapest option. -/
def scanMinAux (b : PriceOption) : List PriceOption → PriceOption
  | [] => b
  | o :: os => scanMinAux (if o.price < b.price then o else b) os

/-- Cheapest option of a list, earliest on ties; none for an empty list. -/
def scanMin : List PriceOption → Option PriceOption
  | [] => none
  | o :: os => some (scanMinAux o os)

/-- Return record of getGreedyUpperBound. -/
structure GreedyUB where
  cost : Nat
  shopCount : Nat
deriving DecidableEq

/-- Accumulating loop of getGreedyUpperBound: items without options are
skipped (continue), others add their cheapest price and its shop. -/
def greedyAcc (opts : String → List PriceOption) :
    List String → Nat → List String → Nat × List String
  | [], c, s => (c, s)
  | id :: rest, c, s =>
      match scanMin (opts id) with
      | none => greedyAcc opts rest c s
      | some ch => greedyAcc opts rest (c + ch.price) (setInsert s ch.shop)

/-- getGreedyUpperBound of bestPriceDPOptimized.ts. -/
def getGreedyUpperBound (opts : String → List PriceOption) (items : List String) : GreedyUB :=
  let p := greedyAcc opts items 0 []
  ⟨p.1, p.2.length⟩

/-- getLowerBound of bestPriceDPOptimized.ts: per-item cheapest prices summed
from startIndex on, items without options skipped. -/
def getLowerBound (opts : String → List PriceOption) (items : List String) (start : Nat) : Nat :=
  looseLB opts (items.drop start)

/-- The pruning and memoization switches of dpBB; srcFlags is the source. -/
structure Flags where
  pruneCost : Bool
  pruneLB : Bool
  pruneOpt : Bool
  useMemo : Bool
deriving DecidableEq

def srcFlags : Flags := ⟨true, true, true, true⟩

def allOffFlags : Flags := ⟨false, false, false, true⟩

def noMemoFlags : Flags := ⟨true, true, true, false⟩

/-- The mutable search state of bestPriceDPOptimized.ts: memo table keyed by
(itemIndex, shopsBitmask), and the best-cost / best-shop-count ceiling. -/
structure OptSt where
  memo : List ((Nat × Nat) × Option Nat)
  bestCost : Nat
  bestShopCount : Nat
deriving DecidableEq

/-- Map.set on the memo table (each key is written at most once per solve). -/
def memoSet (fl : Flags) (st : OptSt) (k : Nat × Nat) (v : Option Nat) : OptSt :=
  if fl.useMemo then ⟨(k, v) :: st.memo, st.bestCost, st.bestShopCount⟩ else st

/-- The option loop of dp in bestPriceDPOptimized.ts: cost-based option
pruning (continue), recursion into the next item, and the running
Math.min of the surviving future costs.  A diverging recursive call makes
the whole loop diverge: the none outcome. -/
def dpLoop (fl : Flags) (f : Nat → Nat → OptSt → Option (Option Nat × OptSt)) (c mask : Nat) :
    List PriceOption → Option Nat → OptSt → Option (Option Nat × OptSt)
  | [], acc, st => some (acc, st)
  | o :: os, acc, st =>
      if fl.pruneOpt && decide (st.bestCost ≤ c + o.price) then
        dpLoop fl f c mask os acc st
      else
        match f (Nat.lor mask (jsShl1 o.shopIndex)) (c + o.price) st with
        | none => none
        | some p =>
            match p.1 with
            | none => dpLoop fl f c mask os acc p.2
            | some v =>
                dpLoop fl f c mask os
                  (some (match acc with | none => v | some a => Nat.min a v)) p.2

/-- The dp function of bestPriceDPOptimized.ts with its three pruning rules
and memo table, state threaded explicitly; none is non-termination of the
run (the base case's popcount stuck on a negative int32 mask). -/
def dpBB (fl : Flags) (opts : String → List PriceOption) :
    List String → Nat → Nat → Nat → OptSt → Option (Option Nat × OptSt)
  | [], _, mask, c, st =>
      if fl.pruneCost && decide (st.bestCost ≤ c) then some (none, st)
      else
        match popcount mask with
        | none => none
        | some cnt =>
            if decide (c < st.bestCost)
                || (c == st.bestCost && decide (cnt < st.bestShopCount))
            then some (some 0, ⟨st.memo, c, cnt⟩)
            else some (some 0, st)
  | id :: rest, idx, mask, c, st =>
      if fl.pruneCost && decide (st.bestCost ≤ c) then some (none, st)
      else
        match (if fl.useMemo then List.lookup (idx, mask) st.memo else none) with
        | some v => some (v, st)
        | none =>
          let options := opts id
          if options.isEmpty then some (none, memoSet fl st (idx, mask) none)
          else if fl.pruneLB && decide (st.bestCost ≤ c + looseLB opts (id :: rest)) then
            some (none, memoSet fl st (idx, mask) none)
          else
            match dpLoop fl (fun m c2 s => dpBB fl opts rest (idx + 1) m c2 s) c mask
                (sortByPrice options) none st with
            | none => none
            | some p => some (p.1, memoSet fl p.2 (idx, mask) p.1)

/-- The solve phase of bestPriceDPOptimized.ts: prime the ceiling with the
greedy bound, then run the search from (0, empty mask, cost 0); none is a
run that never returns from the search. -/
def optSearch (fl : Flags) (opts : String → List PriceOption) (items : List String) :
    Option OptSt :=
  let g := getGreedyUpperBound opts items
  match dpBB fl opts items 0 0 0 ⟨[], g.cost, g.shopCount⟩ with
  | none => none
  | some p => some p.2

/-- First option of the sorted list whose cost plus the remaining lower
bound fits under the ceiling (prices are integers, so the 0.01 float
tolerance of the source is the plain comparison). -/
def firstPassing (opts : String → List PriceOption) (B c : Nat) (rest : List String) :
    List PriceOption → Option PriceOption
  | [] => none
  | o :: os =>
      if c + o.price + looseLB opts rest ≤ B then some o
      else firstPassing opts B c rest os

/-- The replay reconstruction of bestPriceDPOptimized.ts.  An item with no
entry in itemToShops makes the source dereference undefined and throw; that
fault is the none outcome.  When no option passes the bound the source
returns with the selection built so far, which is the some [] branch. -/
def reconstruct (opts : String → List PriceOption) (B : Nat) :
    List String → Nat → Option (List Selection)
  | [], _ => some []
  | id :: rest, c =>
      match opts id with
      | [] => none
      | o :: os =>
          match firstPassing opts B c rest (sortByPrice (o :: os)) with
          | none => some []
          | some o2 =>
              (reconstruct opts B rest (c + o2.price)).map
                (fun tail => ⟨id, o2.shop, o2.price⟩ :: tail)

/-- Outcome of one run of bestPriceDPOptimized.ts: an emitted Result, the
unhandled TypeError thrown when reconstruction hits a missing item, or
non-termination of the search. -/
inductive OptOutcome where
  | plan : Result → OptOutcome
  | fault : OptOutcome
  | hang : OptOutcome
deriving DecidableEq

/-- The full pipeline of bestPriceDPOptimized.ts.  Its infeasibility check
compares the ceiling with Infinity, but the ceiling is primed with the
always-finite greedy bound, so the check never fires and is not a branch
here.  The dead popcount call on the shop count of the ceiling is omitted:
its argument is a set size, always a nonnegative int32 on realizable data,
and its value is unused.  totalCost is the ceiling, and shopCount and
shops come from the reconstructed selection. -/
def optSolve (opts : String → List PriceOption) (items : List String) : OptOutcome :=
  match optSearch srcFlags opts items with
  | none => OptOutcome.hang
  | some st =>
      match reconstruct opts st.bestCost items 0 with
      | none => OptOutcome.fault
      | some sel =>
          OptOutcome.plan
            ⟨sel, st.bestCost, (setOfList (sel.map Selection.shop)).length,
             setOfList (sel.map Selection.shop)⟩

/-- bestPriceDPOptimized.ts run against a catalog through its index. -/
def optSolveCat (cat : Catalog) (items : List String) : OptOutcome :=
  optSolve (itemToShops cat) items

/-- bestPrice.ts run against a catalog through its index. -/
def bruteSolveCat (cat : Catalog) (items : List String) : Option Result :=
  bruteSolve (itemToShops cat) items

/- ---------- concrete catalogs used by the evaluation theorems ---------- -/

/-- Two vendors; the only cost-optimal plan for A, B, C uses both. -/
def stCat : Catalog := [("S", [("A", 10), ("B", 10)]), ("T", [("B", 5), ("C", 10)])]

/-- Four vendors with price ties; cost-optimal plans range over 2 or 3
vendors depending on how ties are resolved. -/
def v4Cat : Catalog :=
  [("V1", [("A", 10)]), ("V2", [("B", 10)]), ("V3", [("A", 10), ("B", 10)]),
   ("V4", [("C", 5)])]

/-- A catalog that stocks B but not A. -/
def infCat : Catalog := [("V1", [("B", 5)])]

/-- Thirty-three vendors all stocking item X; the vendor of index 31 gives
the DP a negative int32 mask. -/
def cat33 : Catalog :=
  (List.range 33).map (fun i => ("s" ++ toString i, [("X", 1)]))

/-- Thirty-three vendors where only the first and the last (indices 0 and
32, whose mask bits alias) stock item X, so a DP solve touches no bit-31
mask and runs to completion with aliased vendors. -/
def cat33b : Catalog :=
  ("s0", [("X", 1)]) ::
    ((List.range 31).map (fun i => ("t" ++ toString i, [("Y", 1)])) ++ [("s32", [("X", 2)])])

/-- A raw catalog with an unparseable price and a negative price. -/
def rawBad : RawCatalog := [("V1", [("A", "abc"), ("B", "-3")])]

/-- Witness catalog: two vendors, A cheapest at T, B only at T. -/
def wCat : Catalog := [("S", [("A", 3)]), ("T", [("A", 2), ("B", 4)])]

/-- Every value stored in the memo table is the Infinity sentinel. -/
def MemoNone (st : OptSt) : Prop := ∀ p ∈ st.memo, p.2 = none

/-- Projection of an OptOutcome onto its emitted Result, if any. -/
def planOf : OptOutcome → Option Result
  | OptOutcome.plan r => some r
  | _ => none

/- ---------- generic fold and minimum lemmas ---------- -/

theorem foldl_updMin_spec (l : List Nat) (b : Nat) :
    ∃ m, l.foldl updMin (some b) = some m ∧ (m = b ∨ m ∈ l) ∧ m ≤ b ∧ ∀ x ∈ l, m ≤ x := by
  induction l generalizing b with
  | nil => exact ⟨b, rfl, Or.inl rfl, Nat.le_refl b, by simp⟩
  | cons x xs ih =>
      by_cases h : x < b
      · obtain ⟨m, h1, h2, h3, h4⟩ := ih x
        refine ⟨m, ?_, ?_, ?_, ?_⟩
        · simpa [updMin, h] using h1
        · rcases h2 with h2 | h2
          · exact Or.inr (by simp [h2])
          · exact Or.inr (by simp [h2])
        · exact Nat.le_trans h3 (Nat.le_of_lt h)
        · intro y hy
          rcases List.mem_cons.1 hy with rfl | hy
          · exact h3
          · exact h4 y hy
      · obtain ⟨m, h1, h2, h3, h4⟩ := ih b
        refine ⟨m, ?_, ?_, h3, ?_⟩
        · simpa [updMin, h] using h1
        · rcases h2 with h2 | h2
          · exact Or.inl h2
          · exact Or.inr (by simp [h2])
        · intro y hy
          rcases List.mem_cons.1 hy with rfl | hy
          · exact Nat.le_trans h3 (Nat.le_of_not_lt h)
          · exact h4 y hy

theorem listMinN_spec {l : List Nat} (h : l ≠ []) :
    ∃ m, listMinN l = some m ∧ m ∈ l ∧ ∀ x ∈ l, m ≤ x := by
  cases l with
  | nil => exact absurd rfl h
  | cons x xs =>
      obtain ⟨m, h1, h2, h3, h4⟩ := foldl_updMin_spec xs x
      refine ⟨m, ?_, ?_, ?_⟩
      · simpa [listMinN, updMin] using h1
      · rcases h2 with rfl | h2
        · exact List.mem_cons_self m xs
        · exact List.mem_cons_of_mem x h2
      · intro y hy
        rcases List.mem_cons.1 hy with rfl | hy
        · exact h3
        · exact h4 y hy

theorem foldl_flatMap_eq {α β γ : Type} (g : α → List β) (f : γ → β → γ) :
    ∀ (l : List α) (init : γ),
      (l.flatMap g).foldl f init = l.foldl (fun acc a => (g a).foldl f acc) init := by
  intro l
  induction l with
  | nil => intro init; rfl
  | cons x xs ih => intro init; simp [List.foldl_append, ih]

/- ---------- combos lemmas ---------- -/

theorem mem_combos_cons {opts : String → List PriceOption} {id : String}
    {rest : List String} {t : List PriceOption} :
    t ∈ combos opts (id :: rest) ↔
      ∃ o s, o ∈ opts id ∧ s ∈ combos opts rest ∧ t = o :: s := by
  constructor
  · intro h
    simp only [combos, List.mem_flatMap, List.mem_map] at h
    obtain ⟨o, ho, s, hs, ht⟩ := h
    exact ⟨o, s, ho, hs, ht.symm⟩
  · rintro ⟨o, s, ho, hs, rfl⟩
    simp only [combos, List.mem_flatMap, List.mem_map]
    exact ⟨o, ho, s, hs, rfl⟩

theorem combos_ne_nil {opts : String → List PriceOption} :
    ∀ {items : List String}, (∀ id ∈ items, opts id ≠ []) → combos opts items ≠ [] := by
  intro items
  induction items with
  | nil => intro _; simp [combos]
  | cons id rest ih =>
      intro h
      have hid : opts id ≠ [] := h id (List.mem_cons_self id rest)
      have hrest : combos opts rest ≠ [] := ih (fun x hx => h x (List.mem_cons_of_mem id hx))
      obtain ⟨o, ho⟩ := List.exists_mem_of_ne_nil _ hid
      obtain ⟨s, hs⟩ := List.exists_mem_of_ne_nil _ hrest
      exact List.ne_nil_of_mem (mem_combos_cons.2 ⟨o, s, ho, hs, rfl⟩)

theorem comboCost_cons (o : PriceOption) (s : List PriceOption) :
    comboCost (o :: s) = o.price + comboCost s := by
  simp [comboCost]

/- ---------- cheapest-price lemmas ---------- -/

theorem foldl_minp_le (l : List PriceOption) (b : Nat) :
    (l.foldl (fun m x => Nat.min m x.price) b ≤ b) ∧
      ∀ o ∈ l, l.foldl (fun m x => Nat.min m x.price) b ≤ o.price := by
  induction l generalizing b with
  | nil => simp
  | cons x xs ih =>
      obtain ⟨h1, h2⟩ := ih (Nat.min b x.price)
      refine ⟨Nat.le_trans h1 (Nat.min_le_left _ _), ?_⟩
      intro o ho
      rcases List.mem_cons.1 ho with rfl | ho
      · exact Nat.le_trans h1 (Nat.min_le_right _ _)
      · exact h2 o ho

theorem foldl_minp_mem (l : List PriceOption) (b : Nat) :
    l.foldl (fun m x => Nat.min m x.price) b = b ∨
      ∃ o ∈ l, l.foldl (fun m x => Nat.min m x.price) b = o.price := by
  induction l generalizing b with
  | nil => exact Or.inl rfl
  | cons x xs ih =>
      rcases ih (Nat.min b x.price) with h | ⟨o, ho, h⟩
      · rcases Nat.min_eq_left (le_of_eq rfl) |>.symm with _  -- placeholder
        rcases le_or_lt b x.price with hb | hb
        · exact Or.inl (by simpa [Nat.min_eq_left hb] using h)
        · exact Or.inr ⟨x, List.mem_cons_self x xs,
            by simpa [Nat.min_eq_right (Nat.le_of_lt hb)] using h⟩
      · exact Or.inr ⟨o, List.mem_cons_of_mem x ho, h⟩

theorem minPrice_le {l : List PriceOption} {o : PriceOption} (h : o ∈ l) :
    minPrice l ≤ o.price := by
  cases l with
  | nil => cases h
  | cons x xs =>
      rcases List.mem_cons.1 h with rfl | h
      · exact (foldl_minp_le xs o.price).1
      · exact (foldl_minp_le xs x.price).2 o h

theorem minPrice_attained {l : List PriceOption} (h : l ≠ []) :
    ∃ o ∈ l, o.price = minPrice l := by
  cases l with
  | nil => exact absurd rfl h
  | cons x xs =>
      rcases foldl_minp_mem xs x.price with h1 | ⟨o, ho, h1⟩
      · exact ⟨x, List.mem_cons_self x xs, h1.symm⟩
      · exact ⟨o, List.mem_cons_of_mem x ho, h1.symm⟩

theorem scanMinAux_price (b : PriceOption) (l : List PriceOption) :
    (scanMinAux b l).price = l.foldl (fun m x => Nat.min m x.price) b.price := by
  induction l generalizing b with
  | nil => rfl
  | cons x xs ih =>
      have hx : (if x.price < b.price then x else b).price = Nat.min b.price x.price := by
        by_cases h : x.price < b.price <;> simp [h] <;> omega
      simp only [scanMinAux, List.foldl_cons, ih, hx]

theorem scanMin_price_eq {l : List PriceOption} {o : PriceOption}
    (h : scanMin l = some o) : o.price = minPrice l := by
  cases l with
  | nil => cases h
  | cons x xs =>
      have : o = scanMinAux x xs := by
        simpa [scanMin] using h.symm
      rw [this, scanMinAux_price]
      rfl

theorem scanMin_none_iff {l : List PriceOption} : scanMin l = none ↔ l = [] := by
  cases l <;> simp [scanMin]

/- ---------- bound lemmas ---------- -/

theorem minSumO_eq {opts : String → List PriceOption} :
    ∀ {items : List String}, (∀ id ∈ items, opts id ≠ []) →
      minSumO opts items = some (looseLB opts items) := by
  intro items
  induction items with
  | nil => intro _; rfl
  | cons id rest ih =>
      intro h
      have hid : opts id ≠ [] := h id (List.mem_cons_self id rest)
      have hrest := ih (fun x hx => h x (List.mem_cons_of_mem id hx))
      cases hopts : opts id with
      | nil => exact absurd hopts hid
      | cons o os =>
          simp only [minSumO, looseLB, hopts, hrest]

theorem greedyAcc_cost (opts : String → List PriceOption) :
    ∀ (items : List String) (c : Nat) (s : List String),
      (greedyAcc opts items c s).1 = c + looseLB opts items := by
  intro items
  induction items with
  | nil => intro c s; simp [greedyAcc, looseLB]
  | cons id rest ih =>
      intro c s
      cases hsm : scanMin (opts id) with
      | none =>
          have hnil : opts id = [] := scanMin_none_iff.1 hsm
          simp only [greedyAcc, hsm, ih, looseLB]
          rw [hnil]
          simp [minPrice]
      | some ch =>
          have hp : ch.price = minPrice (opts id) := scanMin_price_eq hsm
          simp only [greedyAcc, hsm, ih, looseLB, hp]
          omega

theorem getGreedyUpperBound_cost (opts : String → List PriceOption) (items : List String) :
    (getGreedyUpperBound opts items).cost = looseLB opts items := by
  simp [getGreedyUpperBound, greedyAcc_cost]

theorem looseLB_eq_sum (opts : String → List PriceOption) :
    ∀ (l : List String), looseLB opts l = (l.map (fun id => minPrice (opts id))).sum := by
  intro l
  induction l with
  | nil => rfl
  | cons id rest ih => simp [looseLB, ih]

/- ---------- the oracle equals the sum of per-item minima ---------- -/

theorem combo_cost_ge (opts : String → List PriceOption) :
    ∀ {items : List String} {t : List PriceOption},
      t ∈ combos opts items → looseLB opts items ≤ comboCost t := by
  intro items
  induction items with
  | nil =>
      intro t ht
      simp [combos] at ht
      simp [ht, looseLB, comboCost]
  | cons id rest ih =>
      intro t ht
      obtain ⟨o, s, ho, hs, rfl⟩ := mem_combos_cons.1 ht
      have h1 : minPrice (opts id) ≤ o.price := minPrice_le ho
      have h2 := ih hs
      simp only [looseLB, comboCost_cons]
      omega

theorem exists_min_combo (opts : String → List PriceOption) :
    ∀ {items : List String}, (∀ id ∈ items, opts id ≠ []) →
      ∃ t ∈ combos opts items, comboCost t = looseLB opts items := by
  intro items
  induction items with
  | nil => intro _; exact ⟨[], by simp [combos], by simp [comboCost, looseLB]⟩
  | cons id rest ih =>
      intro h
      obtain ⟨o, ho, hop⟩ := minPrice_attained (h id (List.mem_cons_self id rest))
      obtain ⟨s, hs, hcs⟩ := ih (fun x hx => h x (List.mem_cons_of_mem id hx))
      refine ⟨o :: s, mem_combos_cons.2 ⟨o, s, ho, hs, rfl⟩, ?_⟩
      simp only [comboCost_cons, looseLB, hcs, hop]

theorem oracleMin_eq (opts : String → List PriceOption) {items : List String}
    (h : ∀ id ∈ items, opts id ≠ []) :
    oracleMin opts items = some (looseLB opts items) := by
  obtain ⟨t0, ht0, hc0⟩ := exists_min_combo opts h
  have hne : (combos opts items).map comboCost ≠ [] := by
    simpa using combos_ne_nil h
  obtain ⟨m, hm, hmem, hle⟩ := listMinN_spec hne
  obtain ⟨t, ht, hmt⟩ := List.mem_map.1 hmem
  have h1 : looseLB opts items ≤ m := hmt ▸ combo_cost_ge opts ht
  have h2 : m ≤ looseLB opts items := hc0 ▸ hle (comboCost t0) (List.mem_map_of_mem comboCost ht0)
  have : m = looseLB opts items := Nat.le_antisymm h2 h1
  rw [oracleMin, hm, this]

/- ---------- brute-force solver lemmas ---------- -/

theorem map_congr_fn {α β : Type} {f g : α → β} :
    ∀ {l : List α}, (∀ x ∈ l, f x = g x) → l.map f = l.map g := by
  intro l
  induction l with
  | nil => intro _; rfl
  | cons x xs ih =>
      intro h
      simp only [List.map_cons, h x (List.mem_cons_self x xs),
        ih (fun y hy => h y (List.mem_cons_of_mem x hy))]

theorem foldl_congr_fn {α β : Type} {f g : β → α → β} :
    ∀ {l : List α} {b : β}, (∀ acc, ∀ x ∈ l, f acc x = g acc x) → l.foldl f b = l.foldl g b := by
  intro l
  induction l with
  | nil => intro b _; rfl
  | cons x xs ih =>
      intro b h
      simp only [List.foldl_cons, h b x (List.mem_cons_self x xs)]
      exact ih (fun acc y hy => h acc y (List.mem_cons_of_mem x hy))

theorem map_flatMap_eq {α β γ : Type} (g : α → List β) (f : β → γ) (l : List α) :
    (l.flatMap g).map f = l.flatMap (fun a => (g a).map f) := by
  induction l with
  | nil => rfl
  | cons x xs ih => simp [ih]

theorem ltO_irrefl (a : Nat) : ltO (some a) (some a) = false := by
  simp [ltO]

theorem backtrack_nil_cost (opts : String → List PriceOption) (sel : List Selection)
    (c : Nat) (shops : List String) (st : BruteSt) :
    ((backtrack opts [] sel c shops st).1).bestCost = updMin st.bestCost c := by
  cases hb : st.bestCost with
  | none => simp [backtrack, ltO, updMin, hb]
  | some a =>
      by_cases h : c < a
      · simp [backtrack, ltO, updMin, hb, h]
      · by_cases he : a = c
        · subst he
          cases hcnt : ltO (some shops.length) st.bestShopCount <;>
            simp [backtrack, ltO_irrefl, updMin, hb, hcnt]
        · have hne : c ≠ a := fun hc => he hc.symm
          simp [backtrack, ltO, updMin, hb, h, he, hne]

theorem btLoop_cost (f : Selection → Nat → List String → BruteSt → BruteSt × List String)
    (id : String) (c : Nat) (K : Nat → Option Nat → Option Nat)
    (hf : ∀ s c2 sh st2, ((f s c2 sh st2).1).bestCost = K c2 st2.bestCost) :
    ∀ (os : List PriceOption) (p : BruteSt × List String),
      ((btLoop f id c os p).1).bestCost
        = os.foldl (fun b o => K (c + o.price) b) p.1.bestCost := by
  intro os
  induction os with
  | nil => intro p; rfl
  | cons o os ih =>
      intro p
      simp only [btLoop, List.foldl_cons]
      rw [ih]
      simp [hf]

theorem backtrack_cost (opts : String → List PriceOption) :
    ∀ (rem : List String) (sel : List Selection) (c : Nat) (shops : List String) (st : BruteSt),
      ((backtrack opts rem sel c shops st).1).bestCost
        = ((combos opts rem).map (fun t => c + comboCost t)).foldl updMin st.bestCost := by
  intro rem
  induction rem with
  | nil =>
      intro sel c shops st
      rw [backtrack_nil_cost]
      simp [combos, comboCost]
  | cons id rest ih =>
      intro sel c shops st
      have hK := btLoop_cost (fun s c2 sh st2 => backtrack opts rest (sel ++ [s]) c2 sh st2)
        id c (fun c2 b => ((combos opts rest).map (fun t => c2 + comboCost t)).foldl updMin b)
        (fun s c2 sh st2 => ih (sel ++ [s]) c2 sh st2) (opts id) (st, shops)
      have hcombos : combos opts (id :: rest)
          = (opts id).flatMap (fun o => (combos opts rest).map (fun t => o :: t)) := rfl
      calc ((backtrack opts (id :: rest) sel c shops st).1).bestCost
          = (opts id).foldl
              (fun b o => ((combos opts rest).map (fun t => (c + o.price) + comboCost t)).foldl
                updMin b) st.bestCost := by
            simpa [backtrack] using hK
        _ = ((combos opts (id :: rest)).map (fun t => c + comboCost t)).foldl
              updMin st.bestCost := by
            rw [hcombos, map_flatMap_eq, foldl_flatMap_eq]
            apply foldl_congr_fn
            intro acc o _
            rw [List.map_map]
            congr 1
            apply map_congr_fn
            intro t _
            simp [comboCost_cons, Function.comp]
            omega

theorem btLoop_pres (f : Selection → Nat → List String → BruteSt → BruteSt × List String)
    (id : String) (c : Nat) (P : BruteSt → Prop)
    (hf : ∀ s c2 sh st2, P st2 → P (f s c2 sh st2).1) :
    ∀ (os : List PriceOption) (p : BruteSt × List String), P p.1 → P (btLoop f id c os p).1 := by
  intro os
  induction os with
  | nil => intro p hp; exact hp
  | cons o os ih =>
      intro p hp
      exact ih _ (hf _ _ _ _ hp)

theorem backtrack_selNe (opts : String → List PriceOption) :
    ∀ (rem : List String) (sel : List Selection) (c : Nat) (shops : List String) (st : BruteSt),
      (rem = [] → sel ≠ []) →
      (st.bestCost = none ∨ st.bestSelection ≠ []) →
      ((backtrack opts rem sel c shops st).1.bestCost = none ∨
        (backtrack opts rem sel c shops st).1.bestSelection ≠ []) := by
  intro rem
  induction rem with
  | nil =>
      intro sel c shops st hne hP
      have hsel : sel ≠ [] := hne rfl
      simp only [backtrack]
      split
      · exact Or.inr hsel
      · exact hP
  | cons id rest ih =>
      intro sel c shops st _ hP
      simp only [backtrack]
      exact btLoop_pres _ id c (fun b => b.bestCost = none ∨ b.bestSelection ≠ [])
        (fun s c2 sh st2 h => ih (sel ++ [s]) c2 sh st2 (fun _ => by simp) h)
        (opts id) (st, shops) hP

theorem bruteSolve_feasible (opts : String → List PriceOption) (items : List String)
    (h1 : items ≠ []) (h3 : ∀ id ∈ items, opts id ≠ []) :
    ∃ r, bruteSolve opts items = some r ∧ r.totalCost = looseLB opts items := by
  have hcost : ((backtrack opts items [] 0 [] ⟨none, none, []⟩).1).bestCost
      = some (looseLB opts items) := by
    rw [backtrack_cost]
    have hmap : (combos opts items).map (fun t => 0 + comboCost t)
        = (combos opts items).map comboCost := map_congr_fn (fun t _ => Nat.zero_add _)
    show ((combos opts items).map (fun t => 0 + comboCost t)).foldl updMin none
        = some (looseLB opts items)
    rw [hmap]
    exact oracleMin_eq opts h3
  have hsel : (backtrack opts items [] 0 [] ⟨none, none, []⟩).1.bestSelection ≠ [] := by
    rcases backtrack_selNe opts items [] 0 [] ⟨none, none, []⟩
        (fun hh => absurd hh h1) (Or.inl rfl) with hc | hs
    · rw [hcost] at hc; cases hc
    · exact hs
  have hmain : bruteSolve opts items
      = some ⟨(backtrack opts items [] 0 [] ⟨none, none, []⟩).1.bestSelection,
              ((backtrack opts items [] 0 [] ⟨none, none, []⟩).1.bestCost).getD 0,
              ((backtrack opts items [] 0 [] ⟨none, none, []⟩).1.bestShopCount).getD 0,
              setOfList
                ((backtrack opts items [] 0 [] ⟨none, none, []⟩).1.bestSelection.map
                  Selection.shop)⟩ := by
    simp only [bruteSolve]
    rw [if_neg (by simpa [List.isEmpty_iff] using hsel)]
  exact ⟨_, hmain, by simp [hcost]⟩

/- ---------- plain DP lemmas ---------- -/

theorem foldl_updMin_price (s : Nat) {l : List PriceOption} (h : l ≠ []) :
    l.foldl (fun b o => updMin b (o.price + s)) none = some (minPrice l + s) := by
  have h1 : l.foldl (fun b o => updMin b (o.price + s)) none
      = listMinN (l.map (fun o => o.price + s)) := by
    simp [listMinN, List.foldl_map]
  rw [h1]
  have hne : l.map (fun o => o.price + s) ≠ [] := by simpa using h
  obtain ⟨m, hm, hmem, hle⟩ := listMinN_spec hne
  obtain ⟨o, ho, rfl⟩ := List.mem_map.1 hmem
  obtain ⟨o0, ho0, hp0⟩ := minPrice_attained h
  have h2 : minPrice l ≤ o.price := minPrice_le ho
  have h3 : o.price + s ≤ o0.price + s :=
    hle (o0.price + s) (List.mem_map_of_mem _ ho0)
  rw [hm]
  congr 1
  omega

theorem updMin_if_true {b : Option Nat} {x : Nat} {extra : Bool}
    (h : (ltO (some x) b || (b == some x && extra)) = true) : updMin b x = some x := by
  cases b with
  | none => rfl
  | some a =>
      rw [Bool.or_eq_true] at h
      rcases h with h1 | h2
      · have hlt : x < a := by simpa [ltO] using h1
        simp [updMin, hlt]
      · have ha : a = x := by
          rw [Bool.and_eq_true] at h2
          simpa using h2.1
        subst ha
        simp [updMin]

theorem updMin_if_false {b : Option Nat} {x : Nat} {extra : Bool}
    (h : (ltO (some x) b || (b == some x && extra)) = false) : updMin b x = b := by
  cases b with
  | none => simp [ltO] at h
  | some a =>
      have h1 : ltO (some x) (some a) = false := by
        cases hlt : ltO (some x) (some a)
        · rfl
        · rw [hlt] at h; simp at h
      have : ¬ x < a := by simpa [ltO] using h1
      simp [updMin, this]

theorem popcount_safe {n : Nat} (h : n < 2 ^ 31) :
    popcount n = some (popcountAux n n) := by
  simp only [popcount]
  rw [if_pos h]

theorem lor_lt_pow {a b n : Nat} (ha : a < 2 ^ n) (hb : b < 2 ^ n) :
    Nat.lor a b < 2 ^ n :=
  Nat.bitwise_lt ha hb

theorem jsShl1_lt {i : Nat} (h : i < 31) : jsShl1 i < 2 ^ 31 := by
  rw [jsShl1, Nat.mod_eq_of_lt (by omega : i < 32)]
  exact lt_of_le_of_lt
    (Nat.pow_le_pow_right (by norm_num) (by omega : i ≤ 30)) (by norm_num)

theorem dpChoose_none (f : Nat → Option DPSt) (mask : Nat) :
    ∀ (os : List PriceOption) (acc : DPAcc),
      (∀ o ∈ os, ∃ fs, f (Nat.lor mask (jsShl1 o.shopIndex)) = some fs ∧ fs.cost = none) →
      dpChoose f mask os acc = some acc := by
  intro os
  induction os with
  | nil => intro acc _; rfl
  | cons o os ih =>
      intro acc h
      obtain ⟨fs, hfo, hc⟩ := h o (List.mem_cons_self o os)
      simp only [dpChoose, hfo, hc]
      exact ih acc (fun o2 ho2 => h o2 (List.mem_cons_of_mem o ho2))

theorem dpChoose_some (f : Nat → Option DPSt) (mask : Nat) (s : Nat) :
    ∀ (os : List PriceOption) (acc : DPAcc),
      (∀ o ∈ os, ∃ fs, f (Nat.lor mask (jsShl1 o.shopIndex)) = some fs ∧ fs.cost = some s) →
      (∀ o ∈ os, Nat.lor mask (jsShl1 o.shopIndex) < 2 ^ 31) →
      (acc.1 = none ↔ acc.2.2 = none) →
      (∀ b, acc.2.2 = some b → b.2.2 < 2 ^ 31) →
      ∃ acc2, dpChoose f mask os acc = some acc2 ∧
        acc2.1 = os.foldl (fun b o => updMin b (o.price + s)) acc.1 ∧
        (acc2.1 = none ↔ acc2.2.2 = none) ∧
        (∀ b, acc2.2.2 = some b → b.2.2 < 2 ^ 31) := by
  intro os
  induction os with
  | nil => intro acc _ _ h1 h2; exact ⟨acc, rfl, rfl, h1, h2⟩
  | cons o os ih =>
      intro acc hf hm h1 h2
      obtain ⟨fs, hfo, hc⟩ := hf o (List.mem_cons_self o os)
      have hnm : Nat.lor mask (jsShl1 o.shopIndex) < 2 ^ 31 :=
        hm o (List.mem_cons_self o os)
      simp only [dpChoose, hfo, hc, popcount_safe hnm, List.foldl_cons]
      split
      case isTrue hcond =>
        have hupd : updMin acc.1 (o.price + s) = some (o.price + s) := updMin_if_true hcond
        obtain ⟨acc2, ha, hb, hc2, hd⟩ := ih
          (some (o.price + s),
            some (popcountAux (Nat.lor mask (jsShl1 o.shopIndex))
              (Nat.lor mask (jsShl1 o.shopIndex))),
            some (o, fs, Nat.lor mask (jsShl1 o.shopIndex)))
          (fun o2 ho2 => hf o2 (List.mem_cons_of_mem o ho2))
          (fun o2 ho2 => hm o2 (List.mem_cons_of_mem o ho2))
          (by simp)
          (by
            intro b hb2
            have hb3 : (o, fs, Nat.lor mask (jsShl1 o.shopIndex)) = b :=
              Option.some_inj.mp hb2
            rw [← hb3]
            exact hnm)
        exact ⟨acc2, ha, by rw [hb, hupd], hc2, hd⟩
      case isFalse hcond =>
        have hupd : updMin acc.1 (o.price + s) = acc.1 :=
          updMin_if_false (Bool.of_not_eq_true hcond)
        obtain ⟨acc2, ha, hb, hc2, hd⟩ := ih acc
          (fun o2 ho2 => hf o2 (List.mem_cons_of_mem o ho2))
          (fun o2 ho2 => hm o2 (List.mem_cons_of_mem o ho2)) h1 h2
        exact ⟨acc2, ha, by rw [hb, hupd], hc2, hd⟩

theorem dp_sound (opts : String → List PriceOption) :
    ∀ (items : List String) (mask : Nat), mask < 2 ^ 31 →
      (∀ id ∈ items, ∀ o ∈ opts id, jsShl1 o.shopIndex < 2 ^ 31) →
      ∃ d, dp opts items mask = some d ∧ d.cost = minSumO opts items ∧ d.shops < 2 ^ 31 := by
  intro items
  induction items with
  | nil => intro mask hm _; exact ⟨⟨some 0, [], mask⟩, rfl, rfl, hm⟩
  | cons id rest ih =>
      intro mask hm hidx
      have hidx1 : ∀ o ∈ opts id, jsShl1 o.shopIndex < 2 ^ 31 :=
        hidx id (List.mem_cons_self id rest)
      have hidxr : ∀ id2 ∈ rest, ∀ o ∈ opts id2, jsShl1 o.shopIndex < 2 ^ 31 :=
        fun id2 h2 => hidx id2 (List.mem_cons_of_mem id h2)
      have hnm : ∀ o ∈ opts id, Nat.lor mask (jsShl1 o.shopIndex) < 2 ^ 31 :=
        fun o ho => lor_lt_pow hm (hidx1 o ho)
      cases hopts : opts id with
      | nil =>
          refine ⟨⟨none, [], mask⟩, ?_, ?_, hm⟩
          · simp [dp, hopts]
          · simp [minSumO, hopts]
      | cons o1 os1 =>
          have hval : ¬ (opts id).isEmpty = true := by simp [hopts]
          cases hms : minSumO opts rest with
          | none =>
              have hfnone : ∀ o ∈ opts id, ∃ fs,
                  dp opts rest (Nat.lor mask (jsShl1 o.shopIndex)) = some fs
                    ∧ fs.cost = none := by
                intro o ho
                obtain ⟨d, hd1, hd2, _⟩ := ih (Nat.lor mask (jsShl1 o.shopIndex)) (hnm o ho) hidxr
                exact ⟨d, hd1, hd2.trans hms⟩
              have hch := dpChoose_none (fun nm => dp opts rest nm) mask (opts id)
                (none, none, none) hfnone
              refine ⟨⟨none, [], mask⟩, ?_, ?_, hm⟩
              · simp only [dp]
                rw [if_neg hval, hch]
              · simp [minSumO, hopts, hms]
          | some s =>
              have hfsome : ∀ o ∈ opts id, ∃ fs,
                  dp opts rest (Nat.lor mask (jsShl1 o.shopIndex)) = some fs
                    ∧ fs.cost = some s := by
                intro o ho
                obtain ⟨d, hd1, hd2, _⟩ := ih (Nat.lor mask (jsShl1 o.shopIndex)) (hnm o ho) hidxr
                exact ⟨d, hd1, hd2.trans hms⟩
              obtain ⟨acc2, ha, hb, hcup, hbound⟩ := dpChoose_some (fun nm => dp opts rest nm)
                mask s (opts id) (none, none, none) hfsome hnm (by simp) (by simp)
              have hfold : (opts id).foldl (fun b o2 => updMin b (o2.price + s)) none
                  = some (minPrice (opts id) + s) := foldl_updMin_price s (by simp [hopts])
              have hacc1 : acc2.1 = some (minPrice (opts id) + s) := by rw [hb]; exact hfold
              rcases hacc : acc2 with ⟨r1, r2, r3⟩
              rw [hacc] at hacc1 hcup hbound ha
              cases r3 with
              | none =>
                  exfalso
                  rw [hcup.2 rfl] at hacc1
                  cases hacc1
              | some b =>
                  refine ⟨⟨r1, ⟨id, b.1.shop, b.1.price⟩ :: b.2.1.selection, b.2.2⟩, ?_, ?_, ?_⟩
                  · simp only [dp]
                    rw [if_neg hval, ha]
                  · show r1 = minSumO opts (id :: rest)
                    simp only at hacc1
                    rw [hacc1]
                    simp [minSumO, hopts, hms]
                  · exact hbound b rfl

theorem dpSolve_feasible (opts : String → List PriceOption) (shopL : List String)
    (items : List String) (h3 : ∀ id ∈ items, opts id ≠ [])
    (hidx : ∀ id ∈ items, ∀ o ∈ opts id, jsShl1 o.shopIndex < 2 ^ 31) :
    ∃ r, dpSolve opts shopL items = DPOutcome.result r
      ∧ r.totalCost = looseLB opts items := by
  obtain ⟨d, hd1, hd2, hd3⟩ := dp_sound opts items 0 (by norm_num) hidx
  have hc : d.cost = some (looseLB opts items) := hd2.trans (minSumO_eq h3)
  refine ⟨⟨d.selection, looseLB opts items, popcountAux d.shops d.shops,
    shopsFromMask shopL d.shops⟩, ?_, rfl⟩
  simp [dpSolve, hd1, hc, popcount_safe hd3]

/- ---------- branch-and-bound lemmas ---------- -/

theorem mem_insertByPrice {o x : PriceOption} :
    ∀ {l : List PriceOption}, o ∈ insertByPrice x l ↔ o = x ∨ o ∈ l := by
  intro l
  induction l with
  | nil => simp [insertByPrice]
  | cons y ys ih =>
      by_cases h : y.price < x.price
      · simp only [insertByPrice, if_pos h, List.mem_cons, ih]
        tauto
      · simp only [insertByPrice, if_neg h, List.mem_cons]

theorem mem_sortByPrice {o : PriceOption} :
    ∀ {l : List PriceOption}, o ∈ sortByPrice l ↔ o ∈ l := by
  intro l
  induction l with
  | nil => simp [sortByPrice]
  | cons x xs ih => simp [sortByPrice, mem_insertByPrice, ih]

theorem memoSet_bestCost (fl : Flags) (st : OptSt) (k : Nat × Nat) (v : Option Nat) :
    (memoSet fl st k v).bestCost = st.bestCost := by
  cases hfm : fl.useMemo <;> simp [memoSet, hfm]

theorem memoSet_bestShopCount (fl : Flags) (st : OptSt) (k : Nat × Nat) (v : Option Nat) :
    (memoSet fl st k v).bestShopCount = st.bestShopCount := by
  cases hfm : fl.useMemo <;> simp [memoSet, hfm]

theorem memoSet_memoNone {st : OptSt} (fl : Flags) (k : Nat × Nat) (h : MemoNone st) :
    MemoNone (memoSet fl st k none) := by
  intro p hp
  cases hfm : fl.useMemo with
  | false =>
      rw [memoSet, hfm] at hp
      exact h p (by simpa using hp)
  | true =>
      rw [memoSet, hfm] at hp
      simp only [if_true] at hp
      rcases List.mem_cons.1 hp with rfl | hp
      · rfl
      · exact h p hp

theorem dpLoop_ex (fl : Flags) (f : Nat → Nat → OptSt → Option (Option Nat × OptSt))
    (c mask : Nat) (P : OptSt → Prop) :
    ∀ (os : List PriceOption) (acc : Option Nat) (st : OptSt),
      (∀ o ∈ os, ∀ s2, P s2 →
        ∃ q, f (Nat.lor mask (jsShl1 o.shopIndex)) (c + o.price) s2 = some q ∧ P q.2) →
      P st →
      ∃ r, dpLoop fl f c mask os acc st = some r ∧ P r.2 := by
  intro os
  induction os with
  | nil => intro acc st _ hP; exact ⟨(acc, st), rfl, hP⟩
  | cons o os ih =>
      intro acc st hf hP
      simp only [dpLoop]
      split
      · exact ih acc st (fun o2 ho2 => hf o2 (List.mem_cons_of_mem o ho2)) hP
      · obtain ⟨q, hq1, hq2⟩ := hf o (List.mem_cons_self o os) st hP
        rw [hq1]
        rcases q with ⟨q1, q2⟩
        cases q1 with
        | none => exact ih acc q2 (fun o2 ho2 => hf o2 (List.mem_cons_of_mem o ho2)) hq2
        | some v => exact ih _ q2 (fun o2 ho2 => hf o2 (List.mem_cons_of_mem o ho2)) hq2

theorem dpBB_master (fl : Flags) (opts : String → List PriceOption) :
    ∀ (rem : List String) (idx mask c : Nat) (st : OptSt),
      st.bestCost ≤ c + looseLB opts rem →
      (fl.pruneCost = true ∨ (mask < 2 ^ 31 ∧ (fl.pruneLB = true ∨
        ∀ id ∈ rem, ∀ o ∈ opts id, jsShl1 o.shopIndex < 2 ^ 31))) →
      ∃ p, dpBB fl opts rem idx mask c st = some p ∧
        p.2.bestCost = st.bestCost ∧
        (fl.pruneCost = true → p.2.bestShopCount = st.bestShopCount) ∧
        (fl.pruneLB = true → MemoNone st → MemoNone p.2) := by
  intro rem
  induction rem with
  | nil =>
      intro idx mask c st hle hsafe
      have hlec : st.bestCost ≤ c := by simpa [looseLB] using hle
      simp only [dpBB]
      split
      · exact ⟨(none, st), rfl, rfl, fun _ => rfl, fun _ h => h⟩
      case isFalse hpr =>
        have hpc : fl.pruneCost = false := by
          cases hfc : fl.pruneCost
          · rfl
          · exact absurd (by simp [hfc, hlec]) hpr
        have hmask : mask < 2 ^ 31 := by
          rcases hsafe with h | ⟨h, _⟩
          · rw [h] at hpc; cases hpc
          · exact h
        simp only [popcount_safe hmask]
        split
        case isTrue hupd =>
          have hcb : c = st.bestCost := by
            rw [Bool.or_eq_true] at hupd
            rcases hupd with h1 | h2
            · exact absurd (of_decide_eq_true h1) (Nat.not_lt.2 hlec)
            · rw [Bool.and_eq_true] at h2
              simpa using h2.1
          exact ⟨(some 0, ⟨st.memo, c, popcountAux mask mask⟩), rfl, hcb,
            fun hp => absurd hp (by simp [hpc]), fun _ h => h⟩
        case isFalse => exact ⟨(some 0, st), rfl, rfl, fun _ => rfl, fun _ h => h⟩
  | cons id rest ih =>
      intro idx mask c st hle hsafe
      simp only [dpBB]
      split
      · exact ⟨(none, st), rfl, rfl, fun _ => rfl, fun _ h => h⟩
      case isFalse hpr =>
        cases hlk : (if fl.useMemo then List.lookup (idx, mask) st.memo else none) with
        | some v =>
            simp only [hlk]
            exact ⟨(v, st), rfl, rfl, fun _ => rfl, fun _ h => h⟩
        | none =>
            simp only [hlk]
            by_cases hmt : (opts id).isEmpty = true
            · rw [if_pos hmt]
              exact ⟨(none, memoSet fl st (idx, mask) none), rfl,
                memoSet_bestCost fl st _ none, fun _ => memoSet_bestShopCount fl st _ none,
                fun _ h => memoSet_memoNone fl _ h⟩
            · rw [if_neg hmt]
              by_cases hlb :
                  (fl.pruneLB && decide (st.bestCost ≤ c + looseLB opts (id :: rest))) = true
              · rw [if_pos hlb]
                exact ⟨(none, memoSet fl st (idx, mask) none), rfl,
                  memoSet_bestCost fl st _ none, fun _ => memoSet_bestShopCount fl st _ none,
                  fun _ h => memoSet_memoNone fl _ h⟩
              · rw [if_neg hlb]
                have hplb : fl.pruneLB = false := by
                  cases hf2 : fl.pruneLB
                  · rfl
                  · exact absurd (by simp [hf2, hle]) hlb
                obtain ⟨r, hr1, hr2⟩ := dpLoop_ex fl
                  (fun m c2 s => dpBB fl opts rest (idx + 1) m c2 s) c mask
                  (fun s => s.bestCost = st.bestCost ∧
                    (fl.pruneCost = true → s.bestShopCount = st.bestShopCount))
                  (sortByPrice (opts id)) none st
                  (by
                    intro o ho s2 hs
                    have homem : o ∈ opts id := mem_sortByPrice.1 ho
                    have hmp : minPrice (opts id) ≤ o.price := minPrice_le homem
                    have hpre : s2.bestCost ≤ (c + o.price) + looseLB opts rest := by
                      rw [hs.1]
                      simp only [looseLB] at hle
                      omega
                    have hsafe2 : fl.pruneCost = true ∨
                        (Nat.lor mask (jsShl1 o.shopIndex) < 2 ^ 31 ∧ (fl.pruneLB = true ∨
                          ∀ id2 ∈ rest, ∀ o2 ∈ opts id2, jsShl1 o2.shopIndex < 2 ^ 31)) := by
                      rcases hsafe with hpct | ⟨hmask, hrest⟩
                      · exact Or.inl hpct
                      · have hidxs : ∀ id2 ∈ id :: rest, ∀ o2 ∈ opts id2,
                            jsShl1 o2.shopIndex < 2 ^ 31 := by
                          rcases hrest with h3 | h3
                          · rw [h3] at hplb; cases hplb
                          · exact h3
                        refine Or.inr ⟨lor_lt_pow hmask
                          (hidxs id (List.mem_cons_self id rest) o homem), Or.inr ?_⟩
                        exact fun id2 h2 => hidxs id2 (List.mem_cons_of_mem id h2)
                    obtain ⟨q, hq1, hA, hB, _⟩ := ih (idx + 1)
                      (Nat.lor mask (jsShl1 o.shopIndex)) (c + o.price) s2 hpre hsafe2
                    exact ⟨q, hq1, hA.trans hs.1, fun hp => (hB hp).trans (hs.2 hp)⟩)
                  ⟨rfl, fun _ => rfl⟩
                refine ⟨(r.1, memoSet fl r.2 (idx, mask) r.1), by simp only [hr1], ?_, ?_, ?_⟩
                · rw [memoSet_bestCost]
                  exact hr2.1
                · intro hp
                  rw [memoSet_bestShopCount]
                  exact hr2.2 hp
                · intro hp
                  exact absurd hp (by simp [hplb])

theorem optSearch_sound (fl : Flags) (opts : String → List PriceOption) (items : List String)
    (hsafe : fl.pruneCost = true ∨ fl.pruneLB = true ∨
      ∀ id ∈ items, ∀ o ∈ opts id, jsShl1 o.shopIndex < 2 ^ 31) :
    ∃ st, optSearch fl opts items = some st ∧
      st.bestCost = (getGreedyUpperBound opts items).cost ∧
      (fl.pruneCost = true → st.bestShopCount = (getGreedyUpperBound opts items).shopCount) ∧
      (fl.pruneLB = true → MemoNone st) := by
  have hsafe2 : fl.pruneCost = true ∨ ((0 : Nat) < 2 ^ 31 ∧ (fl.pruneLB = true ∨
      ∀ id ∈ items, ∀ o ∈ opts id, jsShl1 o.shopIndex < 2 ^ 31)) := by
    rcases hsafe with h | h | h
    · exact Or.inl h
    · exact Or.inr ⟨by norm_num, Or.inl h⟩
    · exact Or.inr ⟨by norm_num, Or.inr h⟩
  obtain ⟨p, hp1, hA, hB, hC⟩ := dpBB_master fl opts items 0 0 0
    ⟨[], (getGreedyUpperBound opts items).cost, (getGreedyUpperBound opts items).shopCount⟩
    (by simp [getGreedyUpperBound_cost]) hsafe2
  refine ⟨p.2, ?_, hA, hB, fun hp => hC hp (fun q hq => absurd hq (List.not_mem_nil q))⟩
  simp only [optSearch, hp1]

theorem reconstruct_some (opts : String → List PriceOption) :
    ∀ {items : List String}, (∀ id ∈ items, opts id ≠ []) → ∀ (B c : Nat),
      ∃ sel, reconstruct opts B items c = some sel := by
  intro items
  induction items with
  | nil => intro _ B c; exact ⟨[], rfl⟩
  | cons id rest ih =>
      intro h B c
      cases hopts : opts id with
      | nil => exact absurd hopts (h id (List.mem_cons_self id rest))
      | cons o os =>
          cases hfp : firstPassing opts B c rest (sortByPrice (o :: os)) with
          | none => exact ⟨[], by simp [reconstruct, hopts, hfp]⟩
          | some o2 =>
              obtain ⟨tail, htail⟩ := ih (fun x hx => h x (List.mem_cons_of_mem id hx)) B
                (c + o2.price)
              exact ⟨⟨id, o2.shop, o2.price⟩ :: tail,
                by simp [reconstruct, hopts, hfp, htail]⟩

theorem optSolve_feasible (opts : String → List PriceOption) (items : List String)
    (h3 : ∀ id ∈ items, opts id ≠ []) :
    ∃ sel, optSolve opts items
      = OptOutcome.plan ⟨sel, (getGreedyUpperBound opts items).cost,
          (setOfList (sel.map Selection.shop)).length, setOfList (sel.map Selection.shop)⟩ := by
  obtain ⟨st, hst, hbc, _, _⟩ := optSearch_sound srcFlags opts items (Or.inl rfl)
  obtain ⟨sel, hsel⟩ := reconstruct_some opts h3 st.bestCost 0
  rw [hbc] at hsel
  refine ⟨sel, ?_⟩
  simp only [optSolve, hst, hbc, hsel]

/- ---------- catalog index lemmas ---------- -/

theorem shopList_fold_nodup :
    ∀ (cat : Catalog) (acc : List String), acc.Nodup →
      (cat.foldl (fun acc e => if e.1 ∈ acc then acc else acc ++ [e.1]) acc).Nodup := by
  intro cat
  induction cat with
  | nil => intro acc h; exact h
  | cons y ys ih =>
      intro acc hacc
      simp only [List.foldl_cons]
      by_cases h : y.1 ∈ acc
      · rw [if_pos h]; exact ih acc hacc
      · rw [if_neg h]
        refine ih _ ?_
        rw [List.nodup_append]
        refine ⟨hacc, List.nodup_singleton _, ?_⟩
        intro a ha hb
        rw [List.mem_singleton] at hb
        exact h (hb ▸ ha)

theorem shopList_nodup (cat : Catalog) : (shopList cat).Nodup :=
  shopList_fold_nodup cat [] List.nodup_nil

theorem shopList_fold_mono :
    ∀ (cat : Catalog) (acc : List String) (s : String), s ∈ acc →
      s ∈ cat.foldl (fun acc e => if e.1 ∈ acc then acc else acc ++ [e.1]) acc := by
  intro cat
  induction cat with
  | nil => intro acc s h; exact h
  | cons y ys ih =>
      intro acc s h
      simp only [List.foldl_cons]
      by_cases hy : y.1 ∈ acc
      · rw [if_pos hy]; exact ih acc s h
      · rw [if_neg hy]; exact ih _ s (List.mem_append_left _ h)

theorem shopList_fold_complete :
    ∀ (cat : Catalog) (acc : List String) (e : String × List (String × Nat)), e ∈ cat →
      e.1 ∈ cat.foldl (fun acc e => if e.1 ∈ acc then acc else acc ++ [e.1]) acc := by
  intro cat
  induction cat with
  | nil => intro acc e h; cases h
  | cons y ys ih =>
      intro acc e h
      simp only [List.foldl_cons]
      rcases List.mem_cons.1 h with rfl | h
      · by_cases hy : e.1 ∈ acc
        · rw [if_pos hy]; exact shopList_fold_mono ys acc e.1 hy
        · rw [if_neg hy]
          exact shopList_fold_mono ys _ e.1 (List.mem_append_right _ (List.mem_singleton_self _))
      · by_cases hy : y.1 ∈ acc
        · rw [if_pos hy]; exact ih acc e h
        · rw [if_neg hy]; exact ih _ e h

theorem flatMap_congr_fn {α β : Type} {f g : α → List β} :
    ∀ {l : List α}, (∀ x ∈ l, f x = g x) → l.flatMap f = l.flatMap g := by
  intro l
  induction l with
  | nil => intro _; rfl
  | cons x xs ih =>
      intro h
      simp only [List.flatMap_cons, h x (List.mem_cons_self x xs),
        ih (fun y hy => h y (List.mem_cons_of_mem x hy))]

theorem foldl_append_eq_flatMap {α β : Type} (g : α → List β) :
    ∀ (l : List α) (init : List β),
      l.foldl (fun acc a => acc ++ g a) init = init ++ l.flatMap g := by
  intro l
  induction l with
  | nil => intro init; simp
  | cons x xs ih => intro init; simp [ih]

theorem itemToShops_eq_flatMap (cat : Catalog) (id : String) :
    itemToShops cat id = cat.flatMap (fun e =>
      (e.2.filter (fun p => p.1 == id)).map
        (fun p => ⟨e.1, p.2, shopNameToIndex cat e.1⟩)) := by
  unfold itemToShops
  rw [foldl_append_eq_flatMap, List.nil_append]

theorem itemToShops_shopIndex_lt (cat : Catalog) (id : String) :
    ∀ o ∈ itemToShops cat id, o.shopIndex < (shopList cat).length := by
  intro o ho
  rw [itemToShops_eq_flatMap] at ho
  obtain ⟨e, he, ho⟩ := List.mem_flatMap.1 ho
  obtain ⟨p, _, rfl⟩ := List.mem_map.1 ho
  show shopNameToIndex cat e.1 < (shopList cat).length
  rw [shopNameToIndex]
  exact List.indexOf_lt_length.2 (shopList_fold_complete cat [] e he)

/- ---------- the claims ---------- -/

/-- Counterexample to claim C1 as stated: on a catalog of 33 vendors all
stocking the single requested item X (so the request is nonempty, without
duplicates, and every item has options), the memoized DP solver never
reports a totalCost at all — at the vendor of index 31 the mask 1 << 31 is
a negative int32 and the popcount loop diverges. -/
theorem claim1_counterexample :
    (["X"] : List String) ≠ [] ∧ (["X"] : List String).Nodup ∧
    (∀ id ∈ (["X"] : List String), itemToShops cat33 id ≠ []) ∧
    dpSolveCat cat33 ["X"] = DPOutcome.hang := by
  decide

/-- Claim C1 as amended: for every catalog and every requested sequence of
distinct items in which each requested item has at least one price option,
the totalCost reported by the brute-force and branch-and-bound solvers
equals the minimum, over all combinations assigning each item to one
vendor offering it, of the sum of the chosen prices (the brute-force
oracle value); the memoized DP solver reports the same value provided the
catalog has at most 31 distinct vendors, so that no vendor mask becomes a
negative int32 on which its popcount loop diverges. -/
theorem claim1_amended (cat : Catalog) (items : List String)
    (h0 : items ≠ []) (h1 : items.Nodup)
    (h2 : ∀ id ∈ items, itemToShops cat id ≠ []) :
    ∃ (c : Nat) (r1 r3 : Result),
      oracleMin (itemToShops cat) items = some c ∧
      bruteSolveCat cat items = some r1 ∧ r1.totalCost = c ∧
      optSolveCat cat items = OptOutcome.plan r3 ∧ r3.totalCost = c ∧
      ((shopList cat).length ≤ 31 →
        ∃ r2, dpSolveCat cat items = DPOutcome.result r2 ∧ r2.totalCost = c) := by
  obtain ⟨r1, hb1, hb2⟩ := bruteSolve_feasible (itemToShops cat) items h0 h2
  obtain ⟨sel, ho1⟩ := optSolve_feasible (itemToShops cat) items h2
  refine ⟨looseLB (itemToShops cat) items, r1,
    ⟨sel, (getGreedyUpperBound (itemToShops cat) items).cost,
      (setOfList (sel.map Selection.shop)).length, setOfList (sel.map Selection.shop)⟩,
    oracleMin_eq _ h2, hb1, hb2, ho1, getGreedyUpperBound_cost _ _, ?_⟩
  intro hw
  have hidx : ∀ id ∈ items, ∀ o ∈ itemToShops cat id, jsShl1 o.shopIndex < 2 ^ 31 := by
    intro id _ o ho
    have h4 : o.shopIndex < (shopList cat).length := itemToShops_shopIndex_lt cat id o ho
    exact jsShl1_lt (by omega)
  exact dpSolve_feasible (itemToShops cat) (shopList cat) items h2 hidx

/-- Witness for the amended claim C1 at a concrete catalog and request. -/
theorem claim1_witness :
    ∃ (c : Nat) (r1 r3 : Result),
      oracleMin (itemToShops wCat) ["A", "B"] = some c ∧
      bruteSolveCat wCat ["A", "B"] = some r1 ∧ r1.totalCost = c ∧
      optSolveCat wCat ["A", "B"] = OptOutcome.plan r3 ∧ r3.totalCost = c ∧
      ((shopList wCat).length ≤ 31 →
        ∃ r2, dpSolveCat wCat ["A", "B"] = DPOutcome.result r2 ∧ r2.totalCost = c) :=
  claim1_amended wCat ["A", "B"] (by decide) (by decide) (by decide)

/-- Claim C2, evaluation at the failing inputs: on stCat with items A, B, C
the minimum cost is 25 and every minimum-cost combination uses 2 vendors,
yet the brute-force solver and the DP solver both report a vendor count of
1; on v4Cat the minimum cost is 25 and some minimum-cost combination uses 2
vendors, yet the optimized solver reports 3. -/
theorem claim2_eval :
    (bruteSolveCat stCat ["A", "B", "C"]).map Result.shopCount = some 1 ∧
    (dpResultOf (dpSolveCat stCat ["A", "B", "C"])).map Result.shopCount = some 1 ∧
    oracleMin (itemToShops stCat) ["A", "B", "C"] = some 25 ∧
    listMinN (((combos (itemToShops stCat) ["A", "B", "C"]).filter
      (fun t => comboCost t == 25)).map (fun t => (comboShops t).length)) = some 2 ∧
    (planOf (optSolveCat v4Cat ["A", "B", "C"])).map Result.shopCount = some 3 ∧
    oracleMin (itemToShops v4Cat) ["A", "B", "C"] = some 25 ∧
    listMinN (((combos (itemToShops v4Cat) ["A", "B", "C"]).filter
      (fun t => comboCost t == 25)).map (fun t => (comboShops t).length)) = some 2 := by
  decide

/-- Claim C3, evaluation at the failing input: the brute-force Result on
stCat reports shopCount 1 while its own selectedItems use the 2 distinct
shops S and T (also listed in its shops field), and the DP Result reports
shopCount 1 with shops list containing only S for the same 2-shop
selection. -/
theorem claim3_eval :
    bruteSolveCat stCat ["A", "B", "C"]
      = some ⟨[⟨"A", "S", 10⟩, ⟨"B", "T", 5⟩, ⟨"C", "T", 10⟩], 25, 1, ["S", "T"]⟩ ∧
    (setOfList ([(⟨"A", "S", 10⟩ : Selection), ⟨"B", "T", 5⟩, ⟨"C", "T", 10⟩].map
      Selection.shop)).length = 2 ∧
    dpSolveCat stCat ["A", "B", "C"]
      = DPOutcome.result ⟨[⟨"A", "S", 10⟩, ⟨"B", "T", 5⟩, ⟨"C", "T", 10⟩], 25, 1, ["S"]⟩ := by
  decide

/-- Claim C4, evaluation at the failing input: requesting the unstocked item
A together with B on the optimized solver, there is no feasible combination,
but the greedy bound silently skips A and primes the ceiling with the finite
value 5, so the solver never reports infeasibility and instead faults when
the reconstruction dereferences the missing item's options. -/
theorem claim4_eval :
    combos (itemToShops infCat) ["A", "B"] = [] ∧
    getGreedyUpperBound (itemToShops infCat) ["A", "B"] = ⟨5, 1⟩ ∧
    (optSearch srcFlags (itemToShops infCat) ["A", "B"]).map OptSt.bestCost = some 5 ∧
    optSolveCat infCat ["A", "B"] = OptOutcome.fault := by
  decide

/-- Claim C5 as amended: for every catalog with at most 31 distinct vendors
(vendor masks then stay nonnegative int32 values on which the popcount
loop terminates) and every requested sequence, the branch-and-bound search
completes and reports the same cost under any setting of the three pruning
flags, and for inputs in which every requested item additionally has at
least one price option, the cost with all pruning disabled equals the cost
computed by the plain memoized DP. -/
theorem claim5_pruning (cat : Catalog) (items : List String) (fl : Flags)
    (hw : (shopList cat).length ≤ 31) :
    (∃ st1 st2, optSearch fl (itemToShops cat) items = some st1 ∧
      optSearch srcFlags (itemToShops cat) items = some st2 ∧
      st1.bestCost = st2.bestCost) ∧
    ((∀ id ∈ items, itemToShops cat id ≠ []) →
      ∃ st0 d, optSearch allOffFlags (itemToShops cat) items = some st0 ∧
        dp (itemToShops cat) items 0 = some d ∧ d.cost = some st0.bestCost) := by
  have hidx : ∀ id ∈ items, ∀ o ∈ itemToShops cat id, jsShl1 o.shopIndex < 2 ^ 31 := by
    intro id _ o ho
    have h4 : o.shopIndex < (shopList cat).length := itemToShops_shopIndex_lt cat id o ho
    exact jsShl1_lt (by omega)
  constructor
  · obtain ⟨st1, h1, hbc1, _, _⟩ :=
      optSearch_sound fl (itemToShops cat) items (Or.inr (Or.inr hidx))
    obtain ⟨st2, h2, hbc2, _, _⟩ :=
      optSearch_sound srcFlags (itemToShops cat) items (Or.inl rfl)
    exact ⟨st1, st2, h1, h2, hbc1.trans hbc2.symm⟩
  · intro h
    obtain ⟨st0, h0, hbc0, _, _⟩ :=
      optSearch_sound allOffFlags (itemToShops cat) items (Or.inr (Or.inr hidx))
    obtain ⟨d, hd1, hd2, _⟩ := dp_sound (itemToShops cat) items 0 (by norm_num) hidx
    refine ⟨st0, d, h0, hd1, ?_⟩
    rw [hd2, minSumO_eq h, hbc0, getGreedyUpperBound_cost]

/-- Counterexample to claim C5 as stated, in two parts.  On an infeasible
request the all-pruning-disabled search still reports the finite greedy
cost 5 while the plain memoized DP reports Infinity.  And on a 33-vendor
catalog the search with the source flags completes with cost 1, while with
the cost and lower-bound prunes disabled it reaches the base case on the
negative int32 mask of vendor index 31 and never terminates, so disabling
pruning does change the reported outcome there. -/
theorem claim5_counterexample :
    (optSearch allOffFlags (itemToShops infCat) ["A", "B"]).map OptSt.bestCost = some 5 ∧
    dp (itemToShops infCat) ["A", "B"] 0 = some ⟨none, [], 0⟩ ∧
    (optSearch srcFlags (itemToShops cat33) ["X"]).map OptSt.bestCost = some 1 ∧
    optSearch allOffFlags (itemToShops cat33) ["X"] = none := by
  decide

/-- Witness for the amended claim C5 at a concrete catalog and request. -/
theorem claim5_witness :
    (∃ st1 st2, optSearch ⟨false, true, false, true⟩ (itemToShops wCat) ["A", "B"] = some st1 ∧
      optSearch srcFlags (itemToShops wCat) ["A", "B"] = some st2 ∧
      st1.bestCost = st2.bestCost) ∧
    (∃ st0 d, optSearch allOffFlags (itemToShops wCat) ["A", "B"] = some st0 ∧
      dp (itemToShops wCat) ["A", "B"] 0 = some d ∧ d.cost = some st0.bestCost) :=
  ⟨(claim5_pruning wCat ["A", "B"] ⟨false, true, false, true⟩ (by decide)).1,
   (claim5_pruning wCat ["A", "B"] ⟨false, true, false, true⟩ (by decide)).2 (by decide)⟩

/-- Claim C6: for every catalog and request, the branch-and-bound search
reports the same final best cost and best vendor count with the memo table
as without it, so reusing a memoized Infinity entry never loses a
completion that would change the reported cost or tie-break; and every
finite value in the final memo table equals the minimum additional cost of
completing from that state. -/
theorem claim6_memo_valid (cat : Catalog) (items : List String) :
    ∃ st1 st2, optSearch srcFlags (itemToShops cat) items = some st1 ∧
      optSearch noMemoFlags (itemToShops cat) items = some st2 ∧
      st1.bestCost = st2.bestCost ∧ st1.bestShopCount = st2.bestShopCount ∧
      (st1.memo.all
        (fun p => match p.2 with
          | none => true
          | some v => minSumO (itemToShops cat) (items.drop p.1.1) == some v)) = true := by
  obtain ⟨st1, h1, hbc1, hsc1, hmn1⟩ :=
    optSearch_sound srcFlags (itemToShops cat) items (Or.inl rfl)
  obtain ⟨st2, h2, hbc2, hsc2, _⟩ :=
    optSearch_sound noMemoFlags (itemToShops cat) items (Or.inl rfl)
  refine ⟨st1, st2, h1, h2, hbc1.trans hbc2.symm, (hsc1 rfl).trans (hsc2 rfl).symm, ?_⟩
  rw [List.all_eq_true]
  intro p hp
  have hn : p.2 = none := hmn1 rfl p hp
  simp [hn]

/-- Claim C7: getLowerBound returns the sum, over the items from fromIndex
to the end of the sequence, of each item's cheapest available price, and it
is a valid lower bound: every complete vendor assignment of those items
costs at least that much. -/
theorem claim7_lower_bound (cat : Catalog) (items : List String) (i : Nat)
    (h : ∀ id ∈ items.drop i, itemToShops cat id ≠ []) :
    getLowerBound (itemToShops cat) items i
      = ((items.drop i).map (fun id => minPrice (itemToShops cat id))).sum ∧
    ∀ t ∈ combos (itemToShops cat) (items.drop i),
      getLowerBound (itemToShops cat) items i ≤ comboCost t := by
  constructor
  · exact looseLB_eq_sum (itemToShops cat) (items.drop i)
  · intro t ht
    exact combo_cost_ge (itemToShops cat) ht

/-- Witness for claim C7 at a concrete catalog, request and suffix index. -/
theorem claim7_witness :
    getLowerBound (itemToShops wCat) ["A", "B"] 1
      = ((["A", "B"].drop 1).map (fun id => minPrice (itemToShops wCat id))).sum ∧
    ∀ t ∈ combos (itemToShops wCat) (["A", "B"].drop 1),
      getLowerBound (itemToShops wCat) ["A", "B"] 1 ≤ comboCost t :=
  claim7_lower_bound wCat ["A", "B"] 1 (by decide)

/-- Counterexample to claim C8 as stated: a catalog of 33 distinct vendors
is indexed without any failure, vendors s0 and s32 receive the distinct
indices 0 and 32 whose 32-bit mask bits coincide, and a solve proceeds
against that catalog: the DP run on the item both aliased vendors stock
completes and emits a result whose shops list even names both aliased
vendors for a one-vendor plan. -/
theorem claim8_counterexample :
    (shopList cat33b).length = 33 ∧
    shopNameToIndex cat33b "s32" = 32 ∧ shopNameToIndex cat33b "s0" = 0 ∧
    jsShl1 (shopNameToIndex cat33b "s32") = jsShl1 (shopNameToIndex cat33b "s0") ∧
    dpSolveCat cat33b ["X"] = DPOutcome.result ⟨[⟨"X", "s0", 1⟩], 1, 1, ["s0", "s32"]⟩ := by
  decide

/-- Claim C8 as amended: catalog index construction never fails on vendor
count; it assigns a dense index to every vendor of every catalog (the index
list is duplicate-free and complete), and mask bits repeat with period 32,
so beyond 32 vendors distinct vendors alias to the same bit while solves
still proceed: a 33-vendor solve touching only the aliased vendors of
indices 0 and 32 runs to completion, and a solve that exercises vendor
index 31 makes the DP's popcount loop diverge instead of failing fast. -/
theorem claim8_amended :
    (∀ cat : Catalog, (shopList cat).Nodup ∧
      (cat.all (fun e => decide (e.1 ∈ shopList cat))) = true) ∧
    jsShl1 32 = jsShl1 0 ∧
    (dpResultOf (dpSolveCat cat33b ["X"])).isSome = true ∧
    dpSolveCat cat33 ["X"] = DPOutcome.hang := by
  refine ⟨fun cat => ⟨shopList_nodup cat, ?_⟩, by decide, by decide, by decide⟩
  rw [List.all_eq_true]
  intro e he
  exact decide_eq_true (shopList_fold_complete cat [] e he)

/-- Counterexample to claim C9 as stated: the loader coerces the unparseable
price string to NaN and stores it, and stores a negative price unchanged;
catalog index construction does not fail. -/
theorem claim9_counterexample :
    jsNumber "abc" = none ∧
    rawItemToShops rawBad "A" = [⟨"V1", none, 0⟩] ∧
    rawItemToShops rawBad "B" = [⟨"V1", some (-3), 0⟩] := by
  decide

/-- Claim C9 as amended: the loaders apply the Number() coercion to every
price string and store the outcome with no validation at all; every
inventory entry of every raw catalog reaches the option lists, unparseable
and negative prices included, and construction never fails. -/
theorem claim9_amended :
    ∀ (cat : RawCatalog) (id : String),
      (rawItemToShops cat id).map RawOption.price
        = (cat.flatMap (fun e => e.2.filter (fun p => p.1 == id))).map
            (fun p => jsNumber p.2) := by
  intro cat id
  show ((cat.foldl (fun acc e =>
      acc ++ (e.2.filter (fun p => p.1 == id)).map
        (fun p => ⟨e.1, jsNumber p.2, (rawShopList cat).indexOf e.1⟩)) []).map
      RawOption.price) = _
  rw [foldl_append_eq_flatMap]
  rw [List.nil_append, map_flatMap_eq, map_flatMap_eq]
  apply flatMap_congr_fn
  intro e _
  rw [List.map_map]
  rfl

/-- Claim C10: whenever every requested item has at least one price option,
the branch-and-bound solver emits a plan whose totalCost is exactly the
greedy upper bound's cost; the ceiling primed from the greedy bound is
never replaced during the search. -/
theorem claim10_greedy_is_answer (cat : Catalog) (items : List String)
    (h : ∀ id ∈ items, itemToShops cat id ≠ []) :
    ∃ r, optSolveCat cat items = OptOutcome.plan r ∧
      r.totalCost = (getGreedyUpperBound (itemToShops cat) items).cost := by
  obtain ⟨sel, hs⟩ := optSolve_feasible (itemToShops cat) items h
  exact ⟨_, hs, rfl⟩

/-- Witness for claim C10 at a concrete catalog and request. -/
theorem claim10_witness :
    ∃ r, optSolveCat wCat ["A", "B"] = OptOutcome.plan r ∧
      r.totalCost = (getGreedyUpperBound (itemToShops wCat) ["A", "B"]).cost :=
  claim10_greedy_is_answer wCat ["A", "B"] (by decide)
